import Mathlib

/-!
Verification of the Chemical-Engineering-AI repository.

The Python sources are shallowly embedded: Python strings become `List Char`
(written `Chars`) or `String`, bytes become `List Nat` (each < 256), dicts
become association lists or structures, and fallible code returns `Option`
or `Except`.  Each definition is translated from the corresponding Python
function; comments record the modelling decisions that the code itself
cannot show.  Loops that consume their data in non-structural steps are
written with an explicit fuel argument bounded by the measure that makes
the Python loop terminate; the wrapper supplies enough fuel, and an
unfolding lemma below recovers the loop equation.
-/

set_option maxHeartbeats 1000000
set_option maxRecDepth 100000

abbrev Chars := List Char

/-- Whitespace as matched by Python's `\s` regex class and `str.strip()`,
restricted to the ASCII range (the repository's texts and the inputs used
below are ASCII; the unicode space characters are not modelled). -/
def pyIsWs (c : Char) : Bool :=
  c = ' ' || c = '\t' || c = '\n' || c = '\r' || c = '\x0b' || c = '\x0c'

/-- Left part of Python `str.strip()`: drop leading whitespace. -/
def lstrip (l : Chars) : Chars := l.dropWhile pyIsWs

/-- Right part of Python `str.strip()`: drop trailing whitespace. -/
def rstrip : Chars → Chars
  | [] => []
  | c :: cs =>
    let r := rstrip cs
    if r.isEmpty && pyIsWs c then [] else c :: r

/-- Python `str.strip()`: remove leading and trailing whitespace. -/
def strip (l : Chars) : Chars := rstrip (lstrip l)

/-- Fuelled body of `collapseWs`. -/
def collapseWsF : Nat → Chars → Chars
  | _, [] => []
  | 0, l => l
  | fuel + 1, c :: cs =>
    if pyIsWs c then ' ' :: collapseWsF fuel (cs.dropWhile pyIsWs)
    else c :: collapseWsF fuel cs

/-- `re.sub(r'\s+', ' ', text)`: replace every maximal nonempty run of
whitespace by a single space. -/
def collapseWs (l : Chars) : Chars := collapseWsF l.length l

/-- Fuelled body of `sub2`. -/
def sub2F : Nat → Chars → Chars
  | _, [] => []
  | 0, l => l
  | fuel + 1, c :: cs =>
    if c = '\n' then
      let ds := cs.takeWhile Char.isDigit
      let rest := cs.dropWhile Char.isDigit
      if ds.isEmpty = false && rest.head? = some '\n' then
        '\n' :: sub2F fuel rest.tail
      else
        '\n' :: sub2F fuel cs
    else c :: sub2F fuel cs

/-- `re.sub(r'\n\d+\n', '\n', text)`: each non-overlapping occurrence of a
newline, a maximal nonempty digit run, and a newline is replaced by a single
newline; scanning resumes after the consumed closing newline. -/
def sub2 (l : Chars) : Chars := sub2F l.length l

/-- Fuelled body of `sub3`. -/
def sub3F : Nat → Chars → Chars
  | _, [] => []
  | 0, l => l
  | fuel + 1, c :: cs =>
    if c = '\n' then
      if 2 ≤ (cs.takeWhile (fun d => d = '\n')).length then
        '\n' :: '\n' :: sub3F fuel (cs.dropWhile (fun d => d = '\n'))
      else c :: sub3F fuel cs
    else c :: sub3F fuel cs

/-- `re.sub(r'\n{3,}', '\n\n', text)`: each maximal run of at least three
newlines is replaced by exactly two newlines. -/
def sub3 (l : Chars) : Chars := sub3F l.length l

/-- `utils/helpers.py: clean_text` — collapse whitespace runs, remove
page-number lines, squeeze newline runs, then strip the ends. -/
def clean_text (s : String) : String :=
  String.mk (strip (sub3 (sub2 (collapseWs s.data))))

/-- No two adjacent characters are both whitespace. -/
def noTwoWs : Chars → Prop
  | [] => True
  | [_] => True
  | a :: b :: rest => ¬(pyIsWs a = true ∧ pyIsWs b = true) ∧ noTwoWs (b :: rest)

/-- Every whitespace character is a plain space. -/
def allWsSpace (l : Chars) : Prop := ∀ c ∈ l, pyIsWs c = true → c = ' '

/-- A Python scalar as it occurs in the citation dictionaries: absent/None,
an int, or a str.  `PyVal.none` models both a missing 'page' key and an
explicit `None` value (both behave identically under `dict.get` and
truthiness). -/
inductive PyVal : Type
  | none : PyVal
  | int : Int → PyVal
  | str : String → PyVal
deriving DecidableEq, Repr

/-- Python truthiness for the scalars above. -/
def PyVal.truthy : PyVal → Bool
  | .none => false
  | .int n => decide (n ≠ 0)
  | .str s => decide (s ≠ "")

/-- Python `str()` of the scalars above, as used by f-string interpolation. -/
def PyVal.toDisplay : PyVal → String
  | .none => "None"
  | .int n => toString n
  | .str s => s

/-- `utils/helpers.py: format_citation` — `**book** (Page p)`, the page part
present only when `page_number` is truthy. -/
def format_citation (book_name : String) (page_number : PyVal) : String :=
  if page_number.truthy then
    "**" ++ book_name ++ "** (Page " ++ page_number.toDisplay ++ ")"
  else
    "**" ++ book_name ++ "**"

/-- One source dictionary as consumed by `format_citations_list`: the 'book'
key (absent modelled as `Option.none`, read with default "Unknown") and the
'page' key (read with `dict.get`, default `None`). -/
structure CiteSource where
  book : Option String
  page : PyVal
deriving DecidableEq, Repr

/-- The numbered lines built by the loop in `format_citations_list`,
enumerating from `i` (the Python code enumerates from 1). -/
def citationLines : List CiteSource → Nat → List String
  | [], _ => []
  | s :: rest, i =>
      (toString i ++ ". " ++ format_citation (s.book.getD "Unknown") s.page)
        :: citationLines rest (i + 1)

/-- `utils/helpers.py: format_citations_list` — "" on an empty list,
otherwise the numbered citation lines joined with newlines. -/
def format_citations_list (sources : List CiteSource) : String :=
  if sources.isEmpty then ""
  else String.intercalate "\n" (citationLines sources 1)

/-- Fuelled body of `splitSep`. -/
def splitSepF (sep : Chars) : Nat → Chars → List Chars
  | _, [] => [[]]
  | 0, l => [l]
  | fuel + 1, c :: cs =>
    if sep.isEmpty = false ∧ sep.isPrefixOf (c :: cs) then
      [] :: splitSepF sep fuel ((c :: cs).drop sep.length)
    else
      match splitSepF sep fuel cs with
      | [] => [[c]]
      | f :: rest => (c :: f) :: rest

/-- Python `str.split(sep)` for a nonempty separator: cut at every
non-overlapping occurrence of `sep`, scanning left to right. -/
def splitSep (sep l : Chars) : List Chars := splitSepF sep l.length l

/-- Python `s.split(sep)[0]`: the text before the first occurrence of `sep`
(all of `s` when `sep` does not occur). -/
def beforeFirst (sep l : Chars) : Chars := (splitSep sep l).headD l

/-- Python `sep in s`. -/
def hasSub (sep l : Chars) : Bool := decide (2 ≤ (splitSep sep l).length)

/-- Python `s.split(sep, 1)[1]`: the text after the first occurrence of
`sep` (meaningful only when `sep` occurs, as in the guarded source). -/
def afterFirst (sep l : Chars) : Chars :=
  match splitSep sep l with
  | _ :: r :: rest => List.intercalate sep (r :: rest)
  | _ => l

/-- Decimal parsing of a digit-only string, as `int()` behaves on the page
tokens produced by `load_pdf` (Python `int()` additionally accepts signs,
surrounding whitespace and underscores, none of which occur in those
tokens; on any other string both raise/return `none`). -/
def charsToNat? (l : Chars) : Option Nat :=
  if l.isEmpty = false ∧ l.all Char.isDigit then
    some (l.foldl (fun acc c => acc * 10 + (c.toNat - 48)) 0)
  else none

/-- The metadata fields of `load_pdf` that `chunk_text` reads
(`metadata['book_name']` and `metadata['file_path']`; the other fields are
never used by `chunk_text`). -/
structure DocMetadata where
  book_name : String
  file_path : String
deriving DecidableEq, Repr

/-- One chunk dictionary produced by `DocumentProcessor.chunk_text`. -/
structure TextChunk where
  text : Chars
  chunk_id : Nat
  book_name : String
  page : Nat
  source : String
deriving DecidableEq, Repr

/-- The per-section parsing at the top of the `for page_section in pages[1:]`
loop: page number before ' ---', page text after the first '---\n' when
present (otherwise the whole section); `none` models the
`ValueError → continue` path. -/
def parsePage (sect : Chars) : Option (Nat × Chars) :=
  match charsToNat? (beforeFirst (" ---".data) sect) with
  | none => none
  | some pn =>
      let pt := if hasSub ("---\n".data) sect
                then afterFirst ("---\n".data) sect
                else sect
      some (pn, pt)

/-- The parsed `(page_num, page_text)` sequence that the chunking loop
consumes: `text.split('--- Page ')[1:]`, sections failing `int()` skipped. -/
def pageList (text : Chars) : List (Nat × Chars) :=
  ((splitSep ("--- Page ".data) text).drop 1).filterMap parsePage

/-- Fuelled body of `chunkWhile`. -/
def chunkWhileF (N O : Nat) (md : DocMetadata) (pn : Nat) :
    Nat → Chars → Nat → List TextChunk × Chars × Nat
  | 0, cur, id => ([], cur, id)
  | fuel + 1, cur, id =>
    if N ≤ cur.length ∧ O < N then
      let out := chunkWhileF N O md pn fuel (cur.drop (N - O)) (id + 1)
      (⟨strip (cur.take N), id, md.book_name, pn, md.file_path⟩ :: out.1,
       out.2)
    else ([], cur, id)

/-- The inner `while len(current_chunk) >= char_chunk_size` loop of
`chunk_text`: emit the stripped `char_chunk_size`-character window, advance
by `char_chunk_size - char_overlap`.  Returns (emitted chunks, remaining
`current_chunk`, next `chunk_id`).  The Lean guard adds `O < N`: when
`O ≥ N` the Python loop never shrinks `current_chunk` and diverges as soon
as it emits, so the model is only meaningful for `O < N`. -/
def chunkWhile (N O : Nat) (md : DocMetadata) (pn : Nat) (cur : Chars)
    (id : Nat) : List TextChunk × Chars × Nat :=
  chunkWhileF N O md pn cur.length cur id

/-- The outer `for page_section in pages[1:]` loop of `chunk_text` over the
parsed pages: append the page text, run the inner loop.  Returns
(chunks, `current_chunk`, `chunk_id`, last parsed `page_num`). -/
def chunkPages (N O : Nat) (md : DocMetadata) :
    List (Nat × Chars) → Chars → Nat → Nat →
      List TextChunk × Chars × Nat × Nat
  | [], cur, id, pn => ([], cur, id, pn)
  | (p, pt) :: rest, cur, id, _ =>
    let r1 := chunkWhile N O md p (cur ++ pt) id
    let r2 := chunkPages N O md rest r1.2.1 r1.2.2 p
    (r1.1 ++ r2.1, r2.2)

/-- `src/document_processor.py: DocumentProcessor.chunk_text`.  The
`page_num` state starts at 1; the Python name is unbound before the first
parsed page, but it is only read once some page text has accumulated, which
requires a parsed page. -/
def chunk_text (chunk_size chunk_overlap : Nat) (text : Chars)
    (md : DocMetadata) : List TextChunk :=
  let N := chunk_size * 4
  let O := chunk_overlap * 4
  let r := chunkPages N O md (pageList text) [] 0 1
  if (strip r.2.1).isEmpty = false then
    r.1 ++ [⟨strip r.2.1, r.2.2.1, md.book_name, r.2.2.2, md.file_path⟩]
  else r.1

/-- Fuelled body of `windowsWhile`. -/
def windowsWhileF (N O : Nat) : Nat → Chars → List Chars
  | 0, _ => []
  | fuel + 1, cur =>
    if N ≤ cur.length ∧ O < N then
      cur.take N :: windowsWhileF N O fuel (cur.drop (N - O))
    else []

/-- The sequence of raw (unstripped) `char_chunk_size`-character windows the
inner loop of `chunk_text` cuts, before `.strip()` is applied to each. -/
def windowsWhile (N O : Nat) (cur : Chars) : List Chars :=
  windowsWhileF N O cur.length cur

/-- Fuelled body of `residWhile`. -/
def residWhileF (N O : Nat) : Nat → Chars → Chars
  | 0, cur => cur
  | fuel + 1, cur =>
    if N ≤ cur.length ∧ O < N then residWhileF N O fuel (cur.drop (N - O))
    else cur

/-- The `current_chunk` left over after the inner loop of `chunk_text`. -/
def residWhile (N O : Nat) (cur : Chars) : Chars :=
  residWhileF N O cur.length cur

/-- All windows cut by `chunk_text` over a given input text. -/
def chunkWindows (chunk_size chunk_overlap : Nat) (text : Chars) :
    List Chars :=
  windowsWhile (chunk_size * 4) (chunk_overlap * 4)
    (((pageList text).map (·.2)).flatten)

/-- 32-bit truncation. -/
def w32 (x : Nat) : Nat := x % 4294967296

/-- 32-bit left rotation. -/
def rotl32 (x s : Nat) : Nat :=
  w32 ((x <<< s) % 4294967296 ||| x >>> (32 - s))

def md5F (b c d : Nat) : Nat := (b &&& c) ||| ((b ^^^ 4294967295) &&& d)
def md5G (b c d : Nat) : Nat := (b &&& d) ||| (c &&& (d ^^^ 4294967295))
def md5H (b c d : Nat) : Nat := b ^^^ c ^^^ d
def md5I (b c d : Nat) : Nat := c ^^^ (b ||| (d ^^^ 4294967295))

/-- The 64 MD5 sine constants, `floor(2^32 * |sin(i+1)|)` (RFC 1321). -/
def md5K : List Nat :=
  [0xd76aa478, 0xe8c7b756, 0x242070db, 0xc1bdceee,
   0xf57c0faf, 0x4787c62a, 0xa8304613, 0xfd469501,
   0x698098d8, 0x8b44f7af, 0xffff5bb1, 0x895cd7be,
   0x6b901122, 0xfd987193, 0xa679438e, 0x49b40821,
   0xf61e2562, 0xc040b340, 0x265e5a51, 0xe9b6c7aa,
   0xd62f105d, 0x02441453, 0xd8a1e681, 0xe7d3fbc8,
   0x21e1cde6, 0xc33707d6, 0xf4d50d87, 0x455a14ed,
   0xa9e3e905, 0xfcefa3f8, 0x676f02d9, 0x8d2a4c8a,
   0xfffa3942, 0x8771f681, 0x6d9d6122, 0xfde5380c,
   0xa4beea44, 0x4bdecfa9, 0xf6bb4b60, 0xbebfbc70,
   0x289b7ec6, 0xeaa127fa, 0xd4ef3085, 0x04881d05,
   0xd9d4d039, 0xe6db99e5, 0x1fa27cf8, 0xc4ac5665,
   0xf4292244, 0x432aff97, 0xab9423a7, 0xfc93a039,
   0x655b59c3, 0x8f0ccc92, 0xffeff47d, 0x85845dd1,
   0x6fa87e4f, 0xfe2ce6e0, 0xa3014314, 0x4e0811a1,
   0xf7537e82, 0xbd3af235, 0x2ad7d2bb, 0xeb86d391]

/-- The 64 MD5 per-round left-rotation amounts (RFC 1321). -/
def md5S : List Nat :=
  [7, 12, 17, 22, 7, 12, 17, 22, 7, 12, 17, 22, 7, 12, 17, 22,
   5, 9, 14, 20, 5, 9, 14, 20, 5, 9, 14, 20, 5, 9, 14, 20,
   4, 11, 16, 23, 4, 11, 16, 23, 4, 11, 16, 23, 4, 11, 16, 23,
   6, 10, 15, 21, 6, 10, 15, 21, 6, 10, 15, 21, 6, 10, 15, 21]

/-- One of the 64 MD5 rounds on a 16-word block `M`. -/
def md5Step (M : List Nat) (st : Nat × Nat × Nat × Nat) (i : Nat) :
    Nat × Nat × Nat × Nat :=
  let a := st.1
  let b := st.2.1
  let c := st.2.2.1
  let d := st.2.2.2
  let f := if i < 16 then md5F b c d
           else if i < 32 then md5G b c d
           else if i < 48 then md5H b c d
           else md5I b c d
  let g := if i < 16 then i
           else if i < 32 then (5 * i + 1) % 16
           else if i < 48 then (3 * i + 5) % 16
           else (7 * i) % 16
  let tmp := w32 (a + f + md5K.getD i 0 + M.getD g 0)
  (d, w32 (b + rotl32 tmp (md5S.getD i 0)), b, c)

/-- Split a byte list into the 16 little-endian 32-bit words of a block. -/
def md5Words (block : List Nat) : List Nat :=
  (List.range 16).map fun j =>
    block.getD (4 * j) 0 + block.getD (4 * j + 1) 0 * 256 +
      block.getD (4 * j + 2) 0 * 65536 + block.getD (4 * j + 3) 0 * 16777216

/-- Process one 64-byte block. -/
def md5Block (st : Nat × Nat × Nat × Nat) (block : List Nat) :
    Nat × Nat × Nat × Nat :=
  let M := md5Words block
  let r := (List.range 64).foldl (md5Step M) st
  (w32 (st.1 + r.1), w32 (st.2.1 + r.2.1),
   w32 (st.2.2.1 + r.2.2.1), w32 (st.2.2.2 + r.2.2.2))

/-- MD5 padding: 0x80, zeros to 56 mod 64, the bit length as 8 LE bytes. -/
def md5Pad (msg : List Nat) : List Nat :=
  let zeros := (119 - msg.length % 64) % 64
  msg ++ 128 :: List.replicate zeros 0 ++
    (List.range 8).map (fun i => (msg.length * 8) >>> (8 * i) % 256)

/-- Fuelled body of `blocks64`. -/
def blocks64F : Nat → List Nat → List (List Nat)
  | _, [] => []
  | 0, l => [l]
  | fuel + 1, l => l.take 64 :: blocks64F fuel (l.drop 64)

/-- Split the padded message into 64-byte blocks. -/
def blocks64 (l : List Nat) : List (List Nat) := blocks64F l.length l

def natToHexLsF (n : Nat) : Char :=
  let d := n % 16
  if d < 10 then Char.ofNat (48 + d) else Char.ofNat (87 + d)

/-- Two lowercase hex digits of a byte. -/
def byteHex (b : Nat) : Chars := [natToHexLsF (b / 16), natToHexLsF b]

/-- `hashlib.md5(msg).hexdigest()`: digest state over all blocks, output as
the little-endian bytes of A, B, C, D in lowercase hex.  The repository
feeds the file through `md5.update` in 4096-byte reads
(`BookManager._calculate_file_hash`), which hashes exactly the
concatenated file contents, i.e. this function on the whole byte list. -/
def md5Hex (msg : List Nat) : String :=
  let st := (blocks64 (md5Pad msg)).foldl md5Block
    (0x67452301, 0xefcdab89, 0x98badcfe, 0x10325476)
  let bytes := [st.1, st.2.1, st.2.2.1, st.2.2.2].map
    (fun w => [w % 256, w >>> 8 % 256, w >>> 16 % 256, w >>> 24 % 256])
  String.mk ((bytes.flatten.map byteHex).flatten)

/-- One value of the `processed_books` dict in `BookManager`.  The
`processed_date` timestamp is wall-clock output and is omitted; no claim
reads it. -/
structure BookEntry where
  file_path : String
  file_hash : String
  chunk_count : Nat
  file_size : Nat
deriving DecidableEq, Repr

/-- The in-memory `processed_books` dict, which `_save_tracker` persists
verbatim under the `processed_books` key.  Python 3 dicts are modelled as
association lists: assignment rewrites the first binding in place or
appends a new one, deletion removes the binding. -/
abbrev BookTracker := List (String × BookEntry)

/-- Python `d[k] = v` on the tracker dict. -/
def dictSet : BookTracker → String → BookEntry → BookTracker
  | [], k, v => [(k, v)]
  | (k', v') :: rest, k, v =>
    if k' = k then (k, v) :: rest else (k', v') :: dictSet rest k v

/-- Python `del d[k]` on the tracker dict. -/
def dictDel : BookTracker → String → BookTracker
  | [], _ => []
  | (k', v') :: rest, k =>
    if k' = k then rest else (k', v') :: dictDel rest k

/-- Python `d.get(k)` / `d[k]` / `k in d` on the tracker dict. -/
def dictGet : BookTracker → String → Option BookEntry
  | [], _ => none
  | (k', v) :: rest, k => if k' = k then some v else dictGet rest k

/-- `src/book_manager.py: BookManager.mark_as_processed`.  The file system
is made explicit: `file_name` is `file_path.name`, `contents` the bytes
`_calculate_file_hash` reads, and `contents.length` the `st_size` returned
by `file_path.stat()`. -/
def mark_as_processed (m : BookTracker) (file_name file_path : String)
    (contents : List Nat) (chunk_count : Nat) : BookTracker :=
  dictSet m file_name
    ⟨file_path, md5Hex contents, chunk_count, contents.length⟩

/-- `src/book_manager.py: BookManager.remove_book`. -/
def remove_book (m : BookTracker) (file_name : String) : BookTracker :=
  if (dictGet m file_name).isSome then dictDel m file_name else m

/-- `src/book_manager.py: BookManager.is_processed` on a tracker whose
entries were written by `mark_as_processed` (so the `'file_hash'` key is
always present; the `.get('file_hash', '')` default is unreachable):
False when the name is untracked, otherwise compare the MD5 of the current
contents with the stored hash. -/
def is_processed (m : BookTracker) (file_name : String)
    (contents : List Nat) : Bool :=
  match dictGet m file_name with
  | none => false
  | some e => md5Hex contents == e.file_hash

/-- One mutation of the tracker: a `mark_as_processed` call (with the file
bytes read at that moment) or a `remove_book` call. -/
inductive BookOp : Type
  | mark (file_name file_path : String) (contents : List Nat)
      (chunk_count : Nat) : BookOp
  | remove (file_name : String) : BookOp

def applyOp (m : BookTracker) : BookOp → BookTracker
  | .mark n p c k => mark_as_processed m n p c k
  | .remove n => remove_book m n

/-- A sequence of tracker mutations, applied in order. -/
def applyOps (ops : List BookOp) (m : BookTracker) : BookTracker :=
  ops.foldl applyOp m

/-- The per-book loop of
`src/document_processor.py: DocumentProcessor.process_books_directory`:
each book's outcome is either its chunk list or the message of the
exception `process_book` raised; the `try/except/continue` extends
`all_chunks` on success, bumps `failed` on failure, and never aborts.
Returns (`all_chunks`, `successful`, `failed`). -/
def processLoop : List (Except String (List TextChunk)) →
    List TextChunk × Nat × Nat
  | [] => ([], 0, 0)
  | .ok cs :: rest =>
    let r := processLoop rest
    (cs ++ r.1, r.2.1 + 1, r.2.2)
  | .error _ :: rest =>
    let r := processLoop rest
    (r.1, r.2.1, r.2.2 + 1)

/-- `src/document_processor.py: DocumentProcessor.process_books_directory`
after directory listing: raises `ValueError` when no PDF is found,
otherwise runs the loop and returns `all_chunks`.  (The earlier
`FileNotFoundError` for a missing directory is file-system behaviour
outside the model.) -/
def process_books_directory (outcomes : List (Except String (List TextChunk))) :
    Except String (List TextChunk) :=
  if outcomes.isEmpty then Except.error "No PDF files found"
  else Except.ok (processLoop outcomes).1

/-- The metadata dict ChromaDB returns for a retrieved chunk;
`VectorStore.add_documents` stores `book_name` and `page` as strings, and
`RAGEngine.query_books` reads both with `.get` defaults, so the fields are
optional here. -/
structure ChunkMeta where
  book_name : Option String
  page : Option String
deriving DecidableEq, Repr

/-- One element of the list `VectorStore.similarity_search` returns.  The
`distance` float is never read by the query paths and is omitted. -/
structure RetrievedChunk where
  text : String
  metadata : ChunkMeta
deriving DecidableEq, Repr

/-- One element of the `sources` list built by `RAGEngine.query_books`. -/
structure QuerySource where
  book : String
  page : String
  text_preview : String
deriving DecidableEq, Repr

/-- The vector store as `RAGEngine` sees it: `similarity_search(question,
top_k)` returning retrieved chunks (the ChromaDB search itself is an
external service; its response is the model's parameter). -/
structure VectorStoreM where
  similarity_search : String → Option Nat → List RetrievedChunk

/-- Modelled from the spec: `src/llm_handler.py` is imported by
`rag_engine.py` but absent from the repository snapshot.  Per the spec,
generation is a single call into a hosted LLM, so the handler is three
opaque string functions: the two prompt builders and `generate_response`. -/
structure LLMHandler where
  create_rag_prompt : String → List RetrievedChunk → String
  create_general_knowledge_prompt : String → String
  generate_response : String → String

/-- The dict `RAGEngine.query` returns. -/
structure QueryResult where
  answer : String
  mode : String
  sources : List QuerySource
  citations : String
deriving DecidableEq, Repr

/-- `src/rag_engine.py: RAGEngine.query_books` — retrieve, handle the empty
case with a fixed message, otherwise generate and collect the sources. -/
def query_books (vs : VectorStoreM) (llm : LLMHandler) (question : String)
    (top_k : Option Nat) : String × List QuerySource :=
  let chunks := vs.similarity_search question top_k
  if chunks.isEmpty then
    ("I couldn't find relevant information in the books to answer this question.",
     [])
  else
    let prompt := llm.create_rag_prompt question chunks
    let answer := llm.generate_response prompt
    let sources := chunks.map fun c =>
      { book := c.metadata.book_name.getD "Unknown"
        page := c.metadata.page.getD "N/A"
        text_preview :=
          if 200 < c.text.length then c.text.take 200 ++ "..." else c.text }
    (answer, sources)

/-- `src/rag_engine.py: RAGEngine.query_general_knowledge`. -/
def query_general_knowledge (llm : LLMHandler) (question : String) : String :=
  llm.generate_response (llm.create_general_knowledge_prompt question)

/-- `src/rag_engine.py: RAGEngine.query` — route to general-knowledge or
book mode.  In book mode the source dicts (string-valued 'book' and 'page'
keys) are handed to `format_citations_list`; the conversion to `CiteSource`
models that duck typing. -/
def query (vs : VectorStoreM) (llm : LLMHandler) (question : String)
    (use_general_knowledge : Bool) (top_k : Option Nat) : QueryResult :=
  if use_general_knowledge then
    { answer := query_general_knowledge llm question
      mode := "general_knowledge"
      sources := []
      citations := "Based on general knowledge (not from textbooks)" }
  else
    let r := query_books vs llm question top_k
    { answer := r.1
      mode := "book_based"
      sources := r.2
      citations := format_citations_list
        (r.2.map fun s => { book := some s.book, page := PyVal.str s.page }) }

/-- The citation line shape asserted by claim C6 for the book-query path,
written from the claim's words: "i. **book** (Page p)" with the page part
omitted when the page value is falsy (the page here is the string
`metadata.get('page', 'N/A')`, falsy exactly when empty). -/
def citationLineSpec (c : RetrievedChunk) : String :=
  if c.metadata.page.getD "N/A" ≠ "" then
    "**" ++ c.metadata.book_name.getD "Unknown" ++ "** (Page "
      ++ c.metadata.page.getD "N/A" ++ ")"
  else "**" ++ c.metadata.book_name.getD "Unknown" ++ "**"

theorem dropWhile_len_le {α : Type} (p : α → Bool) :
    ∀ l : List α, (l.dropWhile p).length ≤ l.length := by
  intro l
  induction l with
  | nil => simp [List.dropWhile]
  | cons a l ih =>
    by_cases h : p a
    · simp [List.dropWhile, h]
      exact Nat.le_succ_of_le ih
    · simp [List.dropWhile, h]

theorem dropWhile_head_not {α : Type} (p : α → Bool) :
    ∀ (l : List α) (a : α), (l.dropWhile p).head? = some a → p a = false := by
  intro l
  induction l with
  | nil => intro a h; simp [List.dropWhile] at h
  | cons b l ih =>
    intro a h
    by_cases hb : p b
    · exact ih a (by simpa [List.dropWhile_cons_of_pos hb] using h)
    · rw [List.dropWhile_cons_of_neg hb] at h
      simp at h
      subst h
      simpa using hb

theorem mem_dropWhile {α : Type} (p : α → Bool) :
    ∀ (l : List α) (a : α), a ∈ l.dropWhile p → a ∈ l := by
  intro l
  induction l with
  | nil => simp [List.dropWhile]
  | cons b l ih =>
    intro a h
    by_cases hb : p b
    · rw [List.dropWhile_cons_of_pos hb] at h
      exact List.mem_cons_of_mem b (ih a h)
    · rwa [List.dropWhile_cons_of_neg hb] at h

theorem rstrip_cons (c : Char) (cs : Chars) :
    rstrip (c :: cs) =
      if (rstrip cs).isEmpty && pyIsWs c then [] else c :: rstrip cs := rfl

theorem head?_rstrip : ∀ l : Chars, rstrip l = [] ∨ (rstrip l).head? = l.head? := by
  intro l
  cases l with
  | nil => left; rfl
  | cons c cs =>
    rw [rstrip_cons]
    by_cases h : (rstrip cs).isEmpty && pyIsWs c
    · left; simp [h]
    · right; simp [h]

theorem mem_rstrip : ∀ (l : Chars) (a : Char), a ∈ rstrip l → a ∈ l := by
  intro l
  induction l with
  | nil => simp [rstrip]
  | cons c cs ih =>
    intro a h
    rw [rstrip_cons] at h
    by_cases hc : (rstrip cs).isEmpty && pyIsWs c
    · simp [hc] at h
    · simp [hc] at h
      rcases h with h | h
      · exact h ▸ List.mem_cons_self a cs
      · exact List.mem_cons_of_mem c (ih a h)

theorem rstrip_idem : ∀ l : Chars, rstrip (rstrip l) = rstrip l := by
  intro l
  induction l with
  | nil => rfl
  | cons c cs ih =>
    rw [rstrip_cons]
    by_cases hc : (rstrip cs).isEmpty && pyIsWs c
    · simp [hc, rstrip]
    · simp only [hc, if_false, Bool.false_eq_true]
      rw [rstrip_cons, ih]
      simp only [Bool.and_eq_true] at hc
      by_cases he : (rstrip cs).isEmpty
      · have : pyIsWs c = false := by
          cases hw : pyIsWs c
          · rfl
          · exact absurd ⟨he, hw⟩ hc
        simp [this]
      · simp [he]

theorem lstrip_idem : ∀ l : Chars, lstrip (lstrip l) = lstrip l := by
  intro l
  induction l with
  | nil => rfl
  | cons c cs ih =>
    by_cases h : pyIsWs c
    · simp only [lstrip, List.dropWhile_cons_of_pos h]
      exact ih
    · simp only [lstrip, List.dropWhile_cons_of_neg h, List.dropWhile_cons_of_neg h]

theorem lstrip_head_not (l : Chars) (c : Char) (t : Chars)
    (h : lstrip l = c :: t) : pyIsWs c = false :=
  dropWhile_head_not pyIsWs l c (by rw [lstrip] at h; simp [h])

theorem lstrip_rstrip_lstrip (l : Chars) :
    lstrip (rstrip (lstrip l)) = rstrip (lstrip l) := by
  cases h : lstrip l with
  | nil => simp [rstrip, lstrip, List.dropWhile]
  | cons c t =>
    have hc : pyIsWs c = false := lstrip_head_not l c t h
    rw [rstrip_cons]
    simp only [hc, Bool.and_false, if_false, Bool.false_eq_true]
    have : ¬ pyIsWs c = true := by simp [hc]
    simp only [lstrip, List.dropWhile_cons_of_neg this]

theorem strip_idem (l : Chars) : strip (strip l) = strip l := by
  simp only [strip]
  rw [lstrip_rstrip_lstrip, rstrip_idem]

theorem mem_strip (l : Chars) (a : Char) (h : a ∈ strip l) : a ∈ l :=
  mem_dropWhile pyIsWs l a (mem_rstrip (lstrip l) a h)


theorem noTwoWs_tail {a : Char} {l : Chars} (h : noTwoWs (a :: l)) :
    noTwoWs l := by
  cases l with
  | nil => trivial
  | cons b t => exact h.2

theorem noTwoWs_cons {a : Char} {l : Chars}
    (hhd : ∀ b, l.head? = some b → ¬(pyIsWs a = true ∧ pyIsWs b = true))
    (hl : noTwoWs l) : noTwoWs (a :: l) := by
  cases l with
  | nil => trivial
  | cons b t => exact ⟨hhd b rfl, hl⟩

theorem noTwoWs_pair {a b : Char} {l : Chars} (h : noTwoWs (a :: b :: l)) :
    ¬(pyIsWs a = true ∧ pyIsWs b = true) := h.1

theorem collapseWsF_allWsSpace :
    ∀ (f : Nat) (l : Chars), l.length ≤ f → allWsSpace (collapseWsF f l) := by
  intro f
  induction f with
  | zero =>
    intro l hl
    interval_cases hl' : l.length
    · cases l with
      | nil => intro c hc; simp [collapseWsF] at hc
      | cons a t => simp at hl'
  | succ f ih =>
    intro l hl
    cases l with
    | nil => intro c hc; simp [collapseWsF] at hc
    | cons a t =>
      simp only [List.length_cons] at hl
      by_cases ha : pyIsWs a
      · simp only [collapseWsF, ha, if_true]
        intro c hc hw
        rcases List.mem_cons.mp hc with h | h
        · exact h
        · exact ih (t.dropWhile pyIsWs)
            (Nat.le_trans (dropWhile_len_le pyIsWs t) (by omega)) c h hw
      · simp only [collapseWsF, ha, if_false, Bool.false_eq_true]
        intro c hc hw
        rcases List.mem_cons.mp hc with h | h
        · subst h; exact absurd hw (by simp [ha])
        · exact ih t (by omega) c h hw

theorem collapseWsF_head (f : Nat) (c : Char) (cs : Chars)
    (h : (c :: cs).length ≤ f) :
    (collapseWsF f (c :: cs)).head? = some (if pyIsWs c then ' ' else c) := by
  cases f with
  | zero => simp at h
  | succ f =>
    by_cases hc : pyIsWs c
    · simp [collapseWsF, hc]
    · simp [collapseWsF, hc]

theorem collapseWsF_noTwoWs :
    ∀ (f : Nat) (l : Chars), l.length ≤ f → noTwoWs (collapseWsF f l) := by
  intro f
  induction f with
  | zero =>
    intro l hl
    cases l with
    | nil => trivial
    | cons a t => simp at hl
  | succ f ih =>
    intro l hl
    cases l with
    | nil => trivial
    | cons a t =>
      simp only [List.length_cons] at hl
      by_cases ha : pyIsWs a
      · simp only [collapseWsF, ha, if_true]
        have hlen : (t.dropWhile pyIsWs).length ≤ f :=
          Nat.le_trans (dropWhile_len_le pyIsWs t) (by omega)
        refine noTwoWs_cons ?_ (ih _ hlen)
        intro b hb hcon
        cases ht : t.dropWhile pyIsWs with
        | nil => rw [ht] at hb; simp [collapseWsF] at hb
        | cons d ds =>
          have hd : pyIsWs d = false :=
            dropWhile_head_not pyIsWs t d (by simp [ht])
          rw [ht] at hb
          rw [collapseWsF_head f d ds (ht ▸ hlen)] at hb
          simp only [hd, if_false, Bool.false_eq_true, Option.some.injEq] at hb
          subst hb
          exact absurd hcon.2 (by simp [hd])
      · simp only [collapseWsF, ha, if_false, Bool.false_eq_true]
        refine noTwoWs_cons ?_ (ih t (by omega))
        intro b _ hcon
        exact absurd hcon.1 (by simp [ha])

theorem collapseWsF_fix :
    ∀ (f : Nat) (l : Chars), l.length ≤ f → noTwoWs l → allWsSpace l →
      collapseWsF f l = l := by
  intro f
  induction f with
  | zero =>
    intro l hl _ _
    cases l with
    | nil => rfl
    | cons a t => simp at hl
  | succ f ih =>
    intro l hl hnt hws
    cases l with
    | nil => rfl
    | cons a t =>
      simp only [List.length_cons] at hl
      by_cases ha : pyIsWs a
      · have ha' : a = ' ' := hws a (List.mem_cons_self a t) ha
        have hdt : t.dropWhile pyIsWs = t := by
          cases t with
          | nil => rfl
          | cons b s =>
            have hb : ¬ pyIsWs b = true := by
              intro hb
              exact noTwoWs_pair hnt ⟨ha, hb⟩
            exact List.dropWhile_cons_of_neg hb
        simp only [collapseWsF, ha, if_true, hdt]
        rw [ih t (by omega) (noTwoWs_tail hnt)
          (fun c hc hw => hws c (List.mem_cons_of_mem a hc) hw), ha']
      · simp only [collapseWsF, ha, if_false, Bool.false_eq_true]
        rw [ih t (by omega) (noTwoWs_tail hnt)
          (fun c hc hw => hws c (List.mem_cons_of_mem a hc) hw)]

theorem sub2F_id :
    ∀ (f : Nat) (l : Chars), l.length ≤ f → (∀ c ∈ l, c ≠ '\n') →
      sub2F f l = l := by
  intro f
  induction f with
  | zero =>
    intro l hl _
    cases l with
    | nil => rfl
    | cons a t => simp at hl
  | succ f ih =>
    intro l hl hn
    cases l with
    | nil => rfl
    | cons a t =>
      simp only [List.length_cons] at hl
      have ha : ¬(a = '\n') := hn a (List.mem_cons_self a t)
      simp only [sub2F, if_neg ha]
      rw [ih t (by omega) (fun c hc => hn c (List.mem_cons_of_mem a hc))]

theorem sub3F_id :
    ∀ (f : Nat) (l : Chars), l.length ≤ f → (∀ c ∈ l, c ≠ '\n') →
      sub3F f l = l := by
  intro f
  induction f with
  | zero =>
    intro l hl _
    cases l with
    | nil => rfl
    | cons a t => simp at hl
  | succ f ih =>
    intro l hl hn
    cases l with
    | nil => rfl
    | cons a t =>
      simp only [List.length_cons] at hl
      have ha : ¬(a = '\n') := hn a (List.mem_cons_self a t)
      simp only [sub3F, if_neg ha]
      rw [ih t (by omega) (fun c hc => hn c (List.mem_cons_of_mem a hc))]

theorem noTwoWs_lstrip : ∀ l : Chars, noTwoWs l → noTwoWs (lstrip l) := by
  intro l
  induction l with
  | nil => intro; trivial
  | cons a t ih =>
    intro h
    by_cases ha : pyIsWs a
    · simp only [lstrip, List.dropWhile_cons_of_pos ha]
      exact ih (noTwoWs_tail h)
    · simpa only [lstrip, List.dropWhile_cons_of_neg ha] using h

theorem noTwoWs_rstrip : ∀ l : Chars, noTwoWs l → noTwoWs (rstrip l) := by
  intro l
  induction l with
  | nil => intro; trivial
  | cons a t ih =>
    intro h
    rw [rstrip_cons]
    by_cases hc : (rstrip t).isEmpty && pyIsWs a
    · simp only [hc, if_true]; trivial
    · simp only [hc, if_false, Bool.false_eq_true]
      refine noTwoWs_cons ?_ (ih (noTwoWs_tail h))
      intro b hb hcon
      rcases head?_rstrip t with he | he
      · rw [he] at hb; simp at hb
      · rw [he] at hb
        cases t with
        | nil => simp at hb
        | cons d ds =>
          simp only [List.head?_cons, Option.some.injEq] at hb
          subst hb
          exact noTwoWs_pair h hcon

theorem noTwoWs_strip (l : Chars) (h : noTwoWs l) : noTwoWs (strip l) :=
  noTwoWs_rstrip _ (noTwoWs_lstrip _ h)

theorem clean_text_eq_strip_collapse (s : String) :
    clean_text s = String.mk (strip (collapseWs s.data)) := by
  have hws : allWsSpace (collapseWs s.data) :=
    collapseWsF_allWsSpace s.data.length s.data (Nat.le_refl _)
  have hnl : ∀ c ∈ collapseWs s.data, c ≠ '\n' := by
    intro c hc he
    have : c = ' ' := hws c hc (by subst he; decide)
    subst he
    exact absurd this (by decide)
  unfold clean_text
  rw [show sub2 (collapseWs s.data) = collapseWs s.data from
    sub2F_id _ _ (Nat.le_refl _) hnl]
  rw [show sub3 (collapseWs s.data) = collapseWs s.data from
    sub3F_id _ _ (Nat.le_refl _) hnl]

/-- Claim C9: `clean_text` is idempotent — its output has no two adjacent
whitespace characters and no leading or trailing whitespace, so a second
application changes nothing: for every string `s`,
`clean_text (clean_text s) = clean_text s`. -/
theorem clean_text_idem (s : String) :
    clean_text (clean_text s) = clean_text s := by
  rw [clean_text_eq_strip_collapse s]
  rw [clean_text_eq_strip_collapse (String.mk (strip (collapseWs s.data)))]
  have hdata : (String.mk (strip (collapseWs s.data))).data
      = strip (collapseWs s.data) := rfl
  rw [hdata]
  have hws : allWsSpace (collapseWs s.data) :=
    collapseWsF_allWsSpace s.data.length s.data (Nat.le_refl _)
  have hnt : noTwoWs (collapseWs s.data) :=
    collapseWsF_noTwoWs s.data.length s.data (Nat.le_refl _)
  have hfix : collapseWs (strip (collapseWs s.data)) = strip (collapseWs s.data) :=
    collapseWsF_fix _ _ (Nat.le_refl _)
      (noTwoWs_strip _ hnt)
      (fun c hc hw => hws c (mem_strip _ c hc) hw)
  rw [hfix, strip_idem]

theorem chunkWhileF_congr (N O : Nat) (md : DocMetadata) (pn : Nat) :
    ∀ (f g : Nat) (cur : Chars) (id : Nat), cur.length ≤ f → cur.length ≤ g →
      chunkWhileF N O md pn f cur id = chunkWhileF N O md pn g cur id := by
  intro f
  induction f with
  | zero =>
    intro g cur id hf hg
    have hc : cur = [] := List.eq_nil_of_length_eq_zero (Nat.le_zero.mp hf)
    subst hc
    cases g with
    | zero => rfl
    | succ g =>
      simp only [chunkWhileF]
      rw [if_neg (by simp; omega)]
  | succ f ih =>
    intro g cur id hf hg
    cases g with
    | zero =>
      have hc : cur = [] := List.eq_nil_of_length_eq_zero (Nat.le_zero.mp hg)
      subst hc
      simp only [chunkWhileF]
      rw [if_neg (by simp; omega)]
    | succ g =>
      simp only [chunkWhileF]
      by_cases hc : N ≤ cur.length ∧ O < N
      · rw [if_pos hc, if_pos hc,
          ih g (cur.drop (N - O)) (id + 1)
            (by simp only [List.length_drop]; omega)
            (by simp only [List.length_drop]; omega)]
      · rw [if_neg hc, if_neg hc]

theorem chunkWhile_eq (N O : Nat) (md : DocMetadata) (pn : Nat) (cur : Chars)
    (id : Nat) :
    chunkWhile N O md pn cur id =
      if N ≤ cur.length ∧ O < N then
        ((⟨strip (cur.take N), id, md.book_name, pn, md.file_path⟩ : TextChunk)
           :: (chunkWhile N O md pn (cur.drop (N - O)) (id + 1)).1,
         (chunkWhile N O md pn (cur.drop (N - O)) (id + 1)).2)
      else ([], cur, id) := by
  by_cases hc : N ≤ cur.length ∧ O < N
  · obtain ⟨k, hk⟩ : ∃ k, cur.length = k + 1 := ⟨cur.length - 1, by omega⟩
    rw [if_pos hc]
    unfold chunkWhile
    rw [hk]
    simp only [chunkWhileF]
    rw [if_pos hc,
      chunkWhileF_congr N O md pn k (cur.drop (N - O)).length _ _
        (by simp only [List.length_drop]; omega) (Nat.le_refl _)]
  · rw [if_neg hc]
    unfold chunkWhile
    cases cur with
    | nil => rfl
    | cons c cs =>
      simp only [List.length_cons] at hc
      simp only [List.length_cons, chunkWhileF]
      rw [if_neg hc]

theorem windowsWhileF_congr (N O : Nat) :
    ∀ (f g : Nat) (cur : Chars), cur.length ≤ f → cur.length ≤ g →
      windowsWhileF N O f cur = windowsWhileF N O g cur := by
  intro f
  induction f with
  | zero =>
    intro g cur hf hg
    have hc : cur = [] := List.eq_nil_of_length_eq_zero (Nat.le_zero.mp hf)
    subst hc
    cases g with
    | zero => rfl
    | succ g =>
      simp only [windowsWhileF]
      rw [if_neg (by simp; omega)]
  | succ f ih =>
    intro g cur hf hg
    cases g with
    | zero =>
      have hc : cur = [] := List.eq_nil_of_length_eq_zero (Nat.le_zero.mp hg)
      subst hc
      simp only [windowsWhileF]
      rw [if_neg (by simp; omega)]
    | succ g =>
      simp only [windowsWhileF]
      by_cases hc : N ≤ cur.length ∧ O < N
      · rw [if_pos hc, if_pos hc,
          ih g (cur.drop (N - O))
            (by simp only [List.length_drop]; omega)
            (by simp only [List.length_drop]; omega)]
      · rw [if_neg hc, if_neg hc]

theorem windowsWhile_eq (N O : Nat) (cur : Chars) :
    windowsWhile N O cur =
      if N ≤ cur.length ∧ O < N then
        cur.take N :: windowsWhile N O (cur.drop (N - O))
      else [] := by
  by_cases hc : N ≤ cur.length ∧ O < N
  · obtain ⟨k, hk⟩ : ∃ k, cur.length = k + 1 := ⟨cur.length - 1, by omega⟩
    rw [if_pos hc]
    unfold windowsWhile
    rw [hk]
    simp only [windowsWhileF]
    rw [if_pos hc,
      windowsWhileF_congr N O k (cur.drop (N - O)).length _
        (by simp only [List.length_drop]; omega) (Nat.le_refl _)]
  · rw [if_neg hc]
    unfold windowsWhile
    cases cur with
    | nil => rfl
    | cons c cs =>
      simp only [List.length_cons] at hc
      simp only [List.length_cons, windowsWhileF]
      rw [if_neg hc]

theorem residWhileF_congr (N O : Nat) :
    ∀ (f g : Nat) (cur : Chars), cur.length ≤ f → cur.length ≤ g →
      residWhileF N O f cur = residWhileF N O g cur := by
  intro f
  induction f with
  | zero =>
    intro g cur hf hg
    have hc : cur = [] := List.eq_nil_of_length_eq_zero (Nat.le_zero.mp hf)
    subst hc
    cases g with
    | zero => rfl
    | succ g =>
      simp only [residWhileF]
      rw [if_neg (by simp; omega)]
  | succ f ih =>
    intro g cur hf hg
    cases g with
    | zero =>
      have hc : cur = [] := List.eq_nil_of_length_eq_zero (Nat.le_zero.mp hg)
      subst hc
      simp only [residWhileF]
      rw [if_neg (by simp; omega)]
    | succ g =>
      simp only [residWhileF]
      by_cases hc : N ≤ cur.length ∧ O < N
      · rw [if_pos hc, if_pos hc,
          ih g (cur.drop (N - O))
            (by simp only [List.length_drop]; omega)
            (by simp only [List.length_drop]; omega)]
      · rw [if_neg hc, if_neg hc]

theorem residWhile_eq (N O : Nat) (cur : Chars) :
    residWhile N O cur =
      if N ≤ cur.length ∧ O < N then residWhile N O (cur.drop (N - O))
      else cur := by
  by_cases hc : N ≤ cur.length ∧ O < N
  · obtain ⟨k, hk⟩ : ∃ k, cur.length = k + 1 := ⟨cur.length - 1, by omega⟩
    rw [if_pos hc]
    unfold residWhile
    rw [hk]
    simp only [residWhileF]
    rw [if_pos hc,
      residWhileF_congr N O k (cur.drop (N - O)).length _
        (by simp only [List.length_drop]; omega) (Nat.le_refl _)]
  · rw [if_neg hc]
    unfold residWhile
    cases cur with
    | nil => rfl
    | cons c cs =>
      simp only [List.length_cons] at hc
      simp only [List.length_cons, residWhileF]
      rw [if_neg hc]

theorem range1_append (s m n : Nat) :
    List.range' s (m + n) = List.range' s m ++ List.range' (s + m) n := by
  have h := List.range'_append s m n 1
  simp only [Nat.one_mul] at h
  rw [Nat.add_comm m n, ← h]

theorem chunkWhile_spec (N O : Nat) (md : DocMetadata) (pn : Nat) :
    ∀ (n : Nat) (cur : Chars) (id : Nat), cur.length ≤ n →
      (chunkWhile N O md pn cur id).1.map (·.text)
          = (windowsWhile N O cur).map strip ∧
      (chunkWhile N O md pn cur id).2.1 = residWhile N O cur ∧
      (chunkWhile N O md pn cur id).1.map (·.chunk_id)
          = List.range' id (windowsWhile N O cur).length ∧
      (chunkWhile N O md pn cur id).2.2
          = id + (windowsWhile N O cur).length ∧
      ∀ c ∈ (chunkWhile N O md pn cur id).1,
        c.book_name = md.book_name ∧ c.source = md.file_path := by
  intro n
  induction n with
  | zero =>
    intro cur id h
    have hcur : cur = [] := List.eq_nil_of_length_eq_zero (Nat.le_zero.mp h)
    subst hcur
    have hc : ¬(N ≤ ([] : Chars).length ∧ O < N) := by simp; omega
    rw [chunkWhile_eq, windowsWhile_eq, residWhile_eq, if_neg hc, if_neg hc,
      if_neg hc]
    simp
  | succ n ih =>
    intro cur id h
    rw [chunkWhile_eq, windowsWhile_eq, residWhile_eq]
    by_cases hc : N ≤ cur.length ∧ O < N
    · rw [if_pos hc, if_pos hc, if_pos hc]
      have hlen : (cur.drop (N - O)).length ≤ n := by
        simp only [List.length_drop]; omega
      obtain ⟨htext, hres, hids, hend, hfields⟩ :=
        ih (cur.drop (N - O)) (id + 1) hlen
      refine ⟨?_, ?_, ?_, ?_, ?_⟩
      · simp only [List.map_cons, htext]
      · exact hres
      · simp only [List.map_cons, List.length_cons, hids, List.range'_succ]
      · simp only [List.length_cons, hend]; omega
      · intro c hcmem
        rcases List.mem_cons.mp hcmem with hhd | htl
        · subst hhd; exact ⟨rfl, rfl⟩
        · exact hfields c htl
    · rw [if_neg hc, if_neg hc, if_neg hc]
      simp

theorem residWhile_not_cond (N O : Nat) :
    ∀ (n : Nat) (cur : Chars), cur.length ≤ n →
      ¬(N ≤ (residWhile N O cur).length ∧ O < N) := by
  intro n
  induction n with
  | zero =>
    intro cur h
    have hcur : cur = [] := List.eq_nil_of_length_eq_zero (Nat.le_zero.mp h)
    subst hcur
    have hc : ¬(N ≤ ([] : Chars).length ∧ O < N) := by simp; omega
    rw [residWhile_eq, if_neg hc]
    simpa using hc
  | succ n ih =>
    intro cur h
    rw [residWhile_eq]
    by_cases hc : N ≤ cur.length ∧ O < N
    · rw [if_pos hc]
      exact ih (cur.drop (N - O)) (by simp only [List.length_drop]; omega)
    · rw [if_neg hc]
      exact hc

theorem windowsWhile_len (N O : Nat) :
    ∀ (n : Nat) (cur : Chars), cur.length ≤ n →
      ∀ w ∈ windowsWhile N O cur, w.length = N := by
  intro n
  induction n with
  | zero =>
    intro cur h w hw
    have hcur : cur = [] := List.eq_nil_of_length_eq_zero (Nat.le_zero.mp h)
    subst hcur
    rw [windowsWhile_eq, if_neg (by simp; omega)] at hw
    simp at hw
  | succ n ih =>
    intro cur h w hw
    rw [windowsWhile_eq] at hw
    by_cases hc : N ≤ cur.length ∧ O < N
    · rw [if_pos hc] at hw
      rcases List.mem_cons.mp hw with hhd | htl
      · subst hhd
        simp only [List.length_take]
        omega
      · exact ih (cur.drop (N - O))
          (by simp only [List.length_drop]; omega) w htl
    · rw [if_neg hc] at hw
      simp at hw

theorem windowsWhile_head (N O : Nat) (cur : Chars) (w : Chars)
    (h : (windowsWhile N O cur).head? = some w) :
    w = cur.take N ∧ N ≤ cur.length ∧ O < N := by
  rw [windowsWhile_eq] at h
  by_cases hc : N ≤ cur.length ∧ O < N
  · rw [if_pos hc] at h
    simp only [List.head?_cons, Option.some.injEq] at h
    exact ⟨h.symm, hc⟩
  · rw [if_neg hc] at h
    simp at h

theorem windowsWhile_chain (N O : Nat) :
    ∀ (n : Nat) (cur : Chars), cur.length ≤ n →
      List.Chain' (fun w w' => w'.take O = w.drop (N - O))
        (windowsWhile N O cur) := by
  intro n
  induction n with
  | zero =>
    intro cur h
    have hcur : cur = [] := List.eq_nil_of_length_eq_zero (Nat.le_zero.mp h)
    subst hcur
    rw [windowsWhile_eq, if_neg (by simp; omega)]
    exact List.chain'_nil
  | succ n ih =>
    intro cur h
    rw [windowsWhile_eq]
    by_cases hc : N ≤ cur.length ∧ O < N
    · rw [if_pos hc]
      have hlen : (cur.drop (N - O)).length ≤ n := by
        simp only [List.length_drop]; omega
      rw [List.chain'_cons']
      refine ⟨?_, ih _ hlen⟩
      intro y hy
      obtain ⟨hy', hylen, _⟩ := windowsWhile_head N O _ y hy
      subst hy'
      rw [List.take_take, Nat.min_eq_left (by omega), List.drop_take]
      congr 1
      omega
    · rw [if_neg hc]
      exact List.chain'_nil

theorem residWhile_append (N O : Nat) :
    ∀ (n : Nat) (a b : Chars), a.length ≤ n →
      residWhile N O (a ++ b)
        = residWhile N O (residWhile N O a ++ b) := by
  intro n
  induction n with
  | zero =>
    intro a b h
    have ha : a = [] := List.eq_nil_of_length_eq_zero (Nat.le_zero.mp h)
    subst ha
    rw [residWhile_eq N O ([] : Chars), if_neg (by simp; omega)]
  | succ n ih =>
    intro a b h
    by_cases hc : N ≤ a.length ∧ O < N
    · have hc' : N ≤ (a ++ b).length ∧ O < N := by
        simp only [List.length_append]; omega
      rw [residWhile_eq N O (a ++ b), if_pos hc',
        List.drop_append_of_le_length (by omega)]
      rw [residWhile_eq N O a, if_pos hc]
      exact ih (a.drop (N - O)) b (by simp only [List.length_drop]; omega)
    · rw [residWhile_eq N O a, if_neg hc]

theorem windowsWhile_append (N O : Nat) :
    ∀ (n : Nat) (a b : Chars), a.length ≤ n →
      windowsWhile N O (a ++ b)
        = windowsWhile N O a ++ windowsWhile N O (residWhile N O a ++ b) := by
  intro n
  induction n with
  | zero =>
    intro a b h
    have ha : a = [] := List.eq_nil_of_length_eq_zero (Nat.le_zero.mp h)
    subst ha
    rw [windowsWhile_eq N O ([] : Chars), if_neg (by simp; omega),
      residWhile_eq N O ([] : Chars), if_neg (by simp; omega)]
    simp
  | succ n ih =>
    intro a b h
    by_cases hc : N ≤ a.length ∧ O < N
    · have hc' : N ≤ (a ++ b).length ∧ O < N := by
        simp only [List.length_append]; omega
      rw [windowsWhile_eq N O (a ++ b), if_pos hc',
        List.take_append_of_le_length hc.1,
        List.drop_append_of_le_length (by omega),
        windowsWhile_eq N O a, if_pos hc,
        residWhile_eq N O a, if_pos hc]
      rw [ih (a.drop (N - O)) b (by simp only [List.length_drop]; omega)]
      simp
    · rw [windowsWhile_eq N O a, if_neg hc,
        residWhile_eq N O a, if_neg hc]
      simp

theorem chunkPages_spec (N O : Nat) (md : DocMetadata) :
    ∀ (pages : List (Nat × Chars)) (cur : Chars) (id pn : Nat),
      ¬(N ≤ cur.length ∧ O < N) →
      (chunkPages N O md pages cur id pn).1.map (·.text)
          = (windowsWhile N O (cur ++ (pages.map (·.2)).flatten)).map strip ∧
      (chunkPages N O md pages cur id pn).2.1
          = residWhile N O (cur ++ (pages.map (·.2)).flatten) ∧
      (chunkPages N O md pages cur id pn).1.map (·.chunk_id)
          = List.range' id
              (windowsWhile N O (cur ++ (pages.map (·.2)).flatten)).length ∧
      (chunkPages N O md pages cur id pn).2.2.1
          = id + (windowsWhile N O (cur ++ (pages.map (·.2)).flatten)).length ∧
      ∀ c ∈ (chunkPages N O md pages cur id pn).1,
        c.book_name = md.book_name ∧ c.source = md.file_path := by
  intro pages
  induction pages with
  | nil =>
    intro cur id pn hcur
    simp only [chunkPages, List.map_nil, List.flatten_nil, List.append_nil]
    rw [windowsWhile_eq, if_neg hcur, residWhile_eq, if_neg hcur]
    simp
  | cons p rest ih =>
    intro cur id pn hcur
    obtain ⟨pnum, pt⟩ := p
    simp only [chunkPages, List.map_cons, List.flatten_cons]
    rw [show cur ++ (pt ++ (rest.map (·.2)).flatten)
        = (cur ++ pt) ++ (rest.map (·.2)).flatten from
      (List.append_assoc cur pt _).symm]
    rw [windowsWhile_append N O (cur ++ pt).length (cur ++ pt) _ (Nat.le_refl _),
      residWhile_append N O (cur ++ pt).length (cur ++ pt) _ (Nat.le_refl _)]
    obtain ⟨w_text, w_res, w_ids, w_end, w_fields⟩ :=
      chunkWhile_spec N O md pnum (cur ++ pt).length (cur ++ pt) id (Nat.le_refl _)
    have hres_cond : ¬(N ≤ (residWhile N O (cur ++ pt)).length ∧ O < N) :=
      residWhile_not_cond N O (cur ++ pt).length (cur ++ pt) (Nat.le_refl _)
    obtain ⟨r_text, r_res, r_ids, r_end, r_fields⟩ :=
      ih (residWhile N O (cur ++ pt)) ((chunkWhile N O md pnum (cur ++ pt) id).2.2)
        pnum hres_cond
    rw [w_res]
    refine ⟨?_, ?_, ?_, ?_, ?_⟩
    · rw [List.map_append, List.map_append, w_text, r_text]
    · rw [r_res]
    · rw [List.map_append, List.length_append, w_ids, r_ids, w_end,
        range1_append]
    · rw [r_end, w_end, List.length_append]
      omega
    · intro c hcmem
      rcases List.mem_append.mp hcmem with hmem | hmem
      · exact w_fields c hmem
      · exact r_fields c hmem

/-- Claim C1 (amended): chunking is fixed-size character slicing with fixed
overlap — `chunk_text` cuts the accumulated text into windows of exactly
`chunk_size*4` characters, each window after the first starting with the
final `chunk_overlap*4` characters of the preceding window; every chunk
except possibly the last carries the `.strip()` of its window (hence at
most, not exactly, `chunk_size*4` characters). -/
theorem chunk_text_windows (size ov : Nat) (text : Chars) (md : DocMetadata)
    (h : ov * 4 < size * 4) :
    (∀ w ∈ chunkWindows size ov text, w.length = size * 4) ∧
    List.Chain' (fun w w' => w'.take (ov * 4) = w.drop (size * 4 - ov * 4))
      (chunkWindows size ov text) ∧
    ((chunk_text size ov text md).map (·.text)
        = (chunkWindows size ov text).map strip ∨
      ∃ t, (chunk_text size ov text md).map (·.text)
        = (chunkWindows size ov text).map strip ++ [t]) := by
  have hcur : ¬(size * 4 ≤ ([] : Chars).length ∧ ov * 4 < size * 4) := by
    simp; omega
  obtain ⟨htext, hres, hids, hend, hfields⟩ :=
    chunkPages_spec (size * 4) (ov * 4) md (pageList text) [] 0 1 hcur
  rw [List.nil_append] at htext hres hids hend
  refine ⟨?_, ?_, ?_⟩
  · intro w hw
    exact windowsWhile_len _ _ _ _ (Nat.le_refl _) w hw
  · exact windowsWhile_chain _ _ _ _ (Nat.le_refl _)
  · unfold chunk_text chunkWindows
    by_cases hfin :
        (strip (chunkPages (size * 4) (ov * 4) md (pageList text) [] 0 1).2.1).isEmpty
          = false
    · right
      refine ⟨strip (chunkPages (size * 4) (ov * 4) md (pageList text) [] 0 1).2.1, ?_⟩
      simp only [hfin, if_true, List.map_append, List.map_cons, List.map_nil]
      rw [htext]
    · left
      simp only [hfin, if_false]
      rw [if_neg (by simp_all)]
      exact htext

/-- Claim C1, counterexample to the claim as stated: with
`chunk_size = 2`, `chunk_overlap = 1` and the cleaned input
"--- Page 1 --- ab d fgh j", `chunk_text` produces 4 chunks and the chunk
at position 2 — not the last — has text of length 7, not
`chunk_size*4 = 8`, because each stored chunk text is the `.strip()` of
its window. -/
theorem chunk_text_windows_counterexample :
    (chunk_text 2 1 ("--- Page 1 --- ab d fgh j".data)
        ⟨"B", "books/B.pdf"⟩).length = 4 ∧
    (((chunk_text 2 1 ("--- Page 1 --- ab d fgh j".data)
        ⟨"B", "books/B.pdf"⟩).map (·.text)).getD 2 []).length ≠ 2 * 4 := by
  decide

theorem chunk_text_windows_witness :
    1 * 4 < 2 * 4 ∧
    List.Chain' (fun w w' => w'.take (1 * 4) = w.drop (2 * 4 - 1 * 4))
      (chunkWindows 2 1 ("--- Page 1 --- ab d fgh j".data)) :=
  ⟨by decide,
   (chunk_text_windows 2 1 ("--- Page 1 --- ab d fgh j".data)
     ⟨"B", "books/B.pdf"⟩ (by decide)).2.1⟩

/-- Claim C10 (amended): the chunk at list position `i` carries
`chunk_id = i` (ids consecutive from 0), every chunk's text is free of
leading and trailing whitespace (it is `.strip()`ped, but can be empty
when a window is all whitespace), and every chunk carries the `book_name`
and `file_path` from the given metadata. -/
theorem chunk_text_invariant (size ov : Nat) (text : Chars)
    (md : DocMetadata) (h : ov * 4 < size * 4) :
    (chunk_text size ov text md).map (·.chunk_id)
        = List.range (chunk_text size ov text md).length ∧
    ∀ c ∈ chunk_text size ov text md,
      strip c.text = c.text ∧ c.book_name = md.book_name ∧
        c.source = md.file_path := by
  have hcur : ¬(size * 4 ≤ ([] : Chars).length ∧ ov * 4 < size * 4) := by
    simp; omega
  obtain ⟨htext, hres, hids, hend, hfields⟩ :=
    chunkPages_spec (size * 4) (ov * 4) md (pageList text) [] 0 1 hcur
  rw [List.nil_append] at htext hres hids hend
  have hlen1 : (chunkPages (size * 4) (ov * 4) md (pageList text) [] 0 1).1.length
      = (windowsWhile (size * 4) (ov * 4)
          (((pageList text).map (·.2)).flatten)).length := by
    have hcongr := congrArg List.length hids
    rwa [List.length_map, List.length_range'] at hcongr
  have hstripped : ∀ c ∈ (chunkPages (size * 4) (ov * 4) md (pageList text) [] 0 1).1,
      strip c.text = c.text := by
    intro c hc
    have : c.text ∈ (chunkPages (size * 4) (ov * 4) md (pageList text) [] 0 1).1.map
        (·.text) := List.mem_map_of_mem _ hc
    rw [htext] at this
    obtain ⟨w, _, hw⟩ := List.mem_map.mp this
    rw [← hw, strip_idem]
  unfold chunk_text
  by_cases hfin :
      (strip (chunkPages (size * 4) (ov * 4) md (pageList text) [] 0 1).2.1).isEmpty
        = false
  · simp only [hfin, if_true]
    constructor
    · rw [List.map_append, List.length_append, hids, hend, List.map_cons,
        List.map_nil, List.length_cons, List.length_nil, hlen1,
        List.range_eq_range', Nat.zero_add, List.range'_1_concat]
      simp
    · intro c hc
      rcases List.mem_append.mp hc with hmem | hmem
      · exact ⟨hstripped c hmem, hfields c hmem⟩
      · simp only [List.mem_cons, List.not_mem_nil, or_false] at hmem
        subst hmem
        exact ⟨strip_idem _, rfl, rfl⟩
  · simp only [hfin, if_false]
    rw [if_neg (by simp_all)]
    constructor
    · rw [hids, hlen1, List.range_eq_range']
    · intro c hc
      exact ⟨hstripped c hc, hfields c hc⟩

/-- Claim C10, counterexample to the claim as stated: with
`chunk_size = 2`, `chunk_overlap = 1` and input "--- Page 1 ---\n" followed
by nine spaces, `chunk_text` returns exactly one chunk whose text is the
empty string (an all-whitespace window strips to ""), refuting
"every chunk's text non-empty". -/
theorem chunk_text_invariant_counterexample :
    (chunk_text 2 1 ("--- Page 1 ---\n         ".data)
        ⟨"B", "books/B.pdf"⟩).map (·.text) = [[]] := by
  decide

theorem chunk_text_invariant_witness :
    1 * 4 < 2 * 4 ∧
    (chunk_text 2 1 ("--- Page 1 --- ab d fgh j".data)
        ⟨"B", "books/B.pdf"⟩).map (·.chunk_id)
      = List.range (chunk_text 2 1 ("--- Page 1 --- ab d fgh j".data)
          ⟨"B", "books/B.pdf"⟩).length :=
  ⟨by decide,
   (chunk_text_invariant 2 1 ("--- Page 1 --- ab d fgh j".data)
     ⟨"B", "books/B.pdf"⟩ (by decide)).1⟩

theorem dictGet_mem : ∀ (m : BookTracker) (k : String) (e : BookEntry),
    dictGet m k = some e → (k, e) ∈ m := by
  intro m
  induction m with
  | nil => intro k e h; simp [dictGet] at h
  | cons p rest ih =>
    intro k e h
    obtain ⟨k', v⟩ := p
    by_cases hk : k' = k
    · subst hk
      rw [dictGet, if_pos rfl, Option.some.injEq] at h
      subst h
      exact List.mem_cons_self _ _
    · rw [dictGet, if_neg hk] at h
      exact List.mem_cons_of_mem _ (ih k e h)

theorem mem_dictSet : ∀ (m : BookTracker) (k : String) (v : BookEntry)
    (p : String × BookEntry), p ∈ dictSet m k v → p = (k, v) ∨ p ∈ m := by
  intro m
  induction m with
  | nil =>
    intro k v p h
    rw [dictSet] at h
    rcases List.mem_cons.mp h with h | h
    · exact Or.inl h
    · exact absurd h (List.not_mem_nil p)
  | cons q rest ih =>
    intro k v p h
    obtain ⟨k', v'⟩ := q
    by_cases hk : k' = k
    · subst hk
      rw [dictSet, if_pos rfl] at h
      rcases List.mem_cons.mp h with h | h
      · exact Or.inl h
      · exact Or.inr (List.mem_cons_of_mem _ h)
    · rw [dictSet, if_neg hk] at h
      rcases List.mem_cons.mp h with h | h
      · exact Or.inr (h ▸ List.mem_cons_self _ _)
      · rcases ih k v p h with h' | h'
        · exact Or.inl h'
        · exact Or.inr (List.mem_cons_of_mem _ h')

theorem mem_dictDel : ∀ (m : BookTracker) (k : String)
    (p : String × BookEntry), p ∈ dictDel m k → p ∈ m := by
  intro m
  induction m with
  | nil => intro k p h; simp [dictDel] at h
  | cons q rest ih =>
    intro k p h
    obtain ⟨k', v'⟩ := q
    by_cases hk : k' = k
    · subst hk
      rw [dictDel, if_pos rfl] at h
      exact List.mem_cons_of_mem _ h
    · rw [dictDel, if_neg hk] at h
      rcases List.mem_cons.mp h with h | h
      · exact h ▸ List.mem_cons_self _ _
      · exact List.mem_cons_of_mem _ (ih k p h)

theorem dictGet_dictSet_self : ∀ (m : BookTracker) (k : String)
    (v : BookEntry), dictGet (dictSet m k v) k = some v := by
  intro m
  induction m with
  | nil => intro k v; simp [dictSet, dictGet]
  | cons q rest ih =>
    intro k v
    obtain ⟨k', v'⟩ := q
    by_cases hk : k' = k
    · subst hk
      simp [dictSet, dictGet]
    · simp only [dictSet, if_neg hk, dictGet, if_neg hk]
      exact ih k v

theorem applyOps_mem : ∀ (ops : List BookOp) (m : BookTracker)
    (p : String × BookEntry), p ∈ applyOps ops m →
    p ∈ m ∨ ∃ path contents k, BookOp.mark p.1 path contents k ∈ ops ∧
      p.2 = ⟨path, md5Hex contents, k, contents.length⟩ := by
  intro ops
  induction ops with
  | nil => intro m p h; exact Or.inl h
  | cons op rest ih =>
    intro m p h
    rcases ih (applyOp m op) p h with hm | ⟨path, contents, k, hmem, he⟩
    · cases op with
      | mark n pa c kc =>
        rcases mem_dictSet m n _ p hm with hp | hp
        · right
          subst hp
          exact ⟨pa, c, kc, List.mem_cons_self _ _, rfl⟩
        · exact Or.inl hp
      | remove n =>
        simp only [applyOp, remove_book] at hm
        by_cases hs : (dictGet m n).isSome
        · rw [if_pos hs] at hm
          exact Or.inl (mem_dictDel m n p hm)
        · rw [if_neg hs] at hm
          exact Or.inl hm
    · exact Or.inr ⟨path, contents, k, List.mem_cons_of_mem _ hmem, he⟩

/-- Claim C2 (amended): the book-tracking store is a JSON file keyed by
file NAME, with the MD5 hash stored inside the entry: after any sequence
of `mark_as_processed` and `remove_book` operations on an initially empty
tracker, every binding of the persisted `processed_books` mapping comes
from a `mark_as_processed` of that file name, and its `file_hash` field is
the MD5 hex digest of the file's contents at marking time. -/
theorem tracker_hash_invariant (ops : List BookOp) (name : String)
    (e : BookEntry) (h : dictGet (applyOps ops []) name = some e) :
    ∃ path contents k, BookOp.mark name path contents k ∈ ops ∧
      e = ⟨path, md5Hex contents, k, contents.length⟩ := by
  have hmem : (name, e) ∈ applyOps ops [] := dictGet_mem _ name e h
  rcases applyOps_mem ops [] (name, e) hmem with hnil | hyp
  · simp at hnil
  · exact hyp

/-- Claim C2, counterexample to the claim as stated: after marking the file
named "doc.pdf" (contents the single byte 120, i.e. b"x"), the persisted
mapping's only key is "doc.pdf", which is not the MD5 hex digest of the
file's contents — the tracker is keyed by file name, and the MD5 hash is a
value inside the entry. -/
theorem tracker_md5_key_counterexample :
    (applyOps [BookOp.mark "doc.pdf" "books/doc.pdf" [120] 3] []).map (·.1)
        = ["doc.pdf"] ∧
    "doc.pdf" ≠ md5Hex [120] := by
  constructor
  · decide
  · decide

theorem tracker_hash_invariant_witness :
    dictGet (applyOps [BookOp.mark "doc.pdf" "books/doc.pdf" [120] 3] [])
        "doc.pdf" = some ⟨"books/doc.pdf", md5Hex [120], 3, 1⟩ ∧
    ∃ path contents k,
      BookOp.mark "doc.pdf" path contents k
          ∈ [BookOp.mark "doc.pdf" "books/doc.pdf" [120] 3] ∧
      (⟨"books/doc.pdf", md5Hex [120], 3, 1⟩ : BookEntry)
          = ⟨path, md5Hex contents, k, contents.length⟩ :=
  ⟨by decide, tracker_hash_invariant _ _ _ (by decide)⟩

/-- Claim C4: `BookManager.is_processed` returns True iff the file's name
is in the tracker and the MD5 of the file's current contents equals the
stored hash; after `mark_as_processed` on an unchanged file it returns
True, and once the file's bytes change so that their MD5 hash differs
(MD5 is not injective, so a change of bytes is detected exactly when the
hash changes) it returns False. -/
theorem is_processed_spec (m : BookTracker) (file_name file_path : String)
    (contents : List Nat) (k : Nat) :
    (is_processed m file_name contents = true ↔
      ∃ e, dictGet m file_name = some e ∧ md5Hex contents = e.file_hash) ∧
    is_processed (mark_as_processed m file_name file_path contents k)
        file_name contents = true ∧
    ∀ contents' : List Nat, md5Hex contents' ≠ md5Hex contents →
      is_processed (mark_as_processed m file_name file_path contents k)
        file_name contents' = false := by
  refine ⟨?_, ?_, ?_⟩
  · unfold is_processed
    cases h : dictGet m file_name with
    | none =>
      simp only [Bool.false_eq_true, false_iff]
      rintro ⟨e, he, -⟩
      exact Option.noConfusion he
    | some e =>
      simp only [beq_iff_eq]
      constructor
      · intro he
        exact ⟨e, rfl, he⟩
      · rintro ⟨e', he', heq⟩
        rw [Option.some.injEq] at he'
        rw [heq, he']
  · unfold is_processed mark_as_processed
    rw [dictGet_dictSet_self]
    simp
  · intro contents' hne
    unfold is_processed mark_as_processed
    rw [dictGet_dictSet_self]
    simpa using hne

theorem is_processed_spec_witness :
    md5Hex [121] ≠ md5Hex [120] ∧
    is_processed (mark_as_processed [] "a.pdf" "books/a.pdf" [120] 3)
        "a.pdf" [121] = false :=
  ⟨by decide,
   (is_processed_spec [] "a.pdf" "books/a.pdf" [120] 3).2.2 [121] (by decide)⟩

theorem processLoop_spec :
    ∀ outcomes : List (Except String (List TextChunk)),
      processLoop outcomes
        = ((outcomes.filterMap Except.toOption).flatten,
           outcomes.countP (fun o => o.toOption.isSome),
           outcomes.countP (fun o => o.toOption.isNone)) := by
  intro outcomes
  induction outcomes with
  | nil => rfl
  | cons o rest ih =>
    cases o with
    | ok cs =>
      simp [processLoop, ih, List.filterMap_cons, Except.toOption,
        List.countP_cons]
    | error msg =>
      simp [processLoop, ih, List.filterMap_cons, Except.toOption,
        List.countP_cons]

/-- Claim C5: in `process_books_directory` an exception raised while
processing one book is caught — the book is counted as failed by the
single-pass loop (each outcome is consumed exactly once, no retry path
exists) and the batch continues — so the returned chunk list is exactly
the concatenation, in order, of the chunks of the books that succeeded. -/
theorem process_books_directory_spec
    (outcomes : List (Except String (List TextChunk))) (h : outcomes ≠ []) :
    process_books_directory outcomes
        = Except.ok ((outcomes.filterMap Except.toOption).flatten) ∧
    (processLoop outcomes).2.1
        = outcomes.countP (fun o => o.toOption.isSome) ∧
    (processLoop outcomes).2.2
        = outcomes.countP (fun o => o.toOption.isNone) := by
  unfold process_books_directory
  rw [if_neg (by simpa using h), processLoop_spec]
  exact ⟨rfl, rfl, rfl⟩

theorem process_books_directory_spec_witness :
    ([Except.ok [⟨['a'], 0, "B", 1, "P"⟩], Except.error "boom",
      Except.ok [⟨['b'], 1, "B", 2, "P"⟩]]
        : List (Except String (List TextChunk))) ≠ [] ∧
    process_books_directory
        [Except.ok [⟨['a'], 0, "B", 1, "P"⟩], Except.error "boom",
         Except.ok [⟨['b'], 1, "B", 2, "P"⟩]]
      = Except.ok ((([Except.ok [⟨['a'], 0, "B", 1, "P"⟩],
          Except.error "boom", Except.ok [⟨['b'], 1, "B", 2, "P"⟩]]
            : List (Except String (List TextChunk))).filterMap
              Except.toOption).flatten) :=
  ⟨by simp, (process_books_directory_spec _ (by simp)).1⟩

/-- Claim C3: `RAGEngine.query` with `use_general_knowledge = True`
performs no vector-store similarity search — its result is the same for
any two vector stores and any `top_k` — and returns mode
"general_knowledge", an empty sources list, and the citation string
"Based on general knowledge (not from textbooks)". -/
theorem query_general_knowledge_spec (vs vs' : VectorStoreM)
    (llm : LLMHandler) (question : String) (top_k top_k' : Option Nat) :
    query vs llm question true top_k = query vs' llm question true top_k' ∧
    (query vs llm question true top_k).mode = "general_knowledge" ∧
    (query vs llm question true top_k).sources = [] ∧
    (query vs llm question true top_k).citations
      = "Based on general knowledge (not from textbooks)" :=
  ⟨rfl, rfl, rfl, rfl⟩

/-- Claim C7: when the vector store's similarity search returns no chunks,
`query_books` returns exactly the fixed message with an empty sources
list, and the result does not depend on the LLM (it is never called). -/
theorem query_books_empty (vs : VectorStoreM) (llm llm' : LLMHandler)
    (question : String) (top_k : Option Nat)
    (h : vs.similarity_search question top_k = []) :
    query_books vs llm question top_k =
      ("I couldn't find relevant information in the books to answer this question.",
       []) ∧
    query_books vs llm question top_k = query_books vs llm' question top_k := by
  unfold query_books
  rw [h]
  exact ⟨rfl, rfl⟩

theorem query_books_empty_witness :
    (VectorStoreM.mk (fun _ _ => [])).similarity_search "q" Option.none
        = [] ∧
    query_books ⟨fun _ _ => []⟩
        ⟨fun _ _ => "p", fun _ => "p", fun _ => "ans"⟩ "q" Option.none
      = ("I couldn't find relevant information in the books to answer this question.",
         []) :=
  ⟨rfl,
   (query_books_empty ⟨fun _ _ => []⟩
     ⟨fun _ _ => "p", fun _ => "p", fun _ => "ans"⟩
     ⟨fun _ _ => "x", fun _ => "x", fun _ => "y"⟩ "q" Option.none rfl).1⟩

theorem citationLines_map {α : Type} (f : α → CiteSource) :
    ∀ (l : List α) (i : Nat),
      citationLines (l.map f) i = (List.enumFrom i l).map
        (fun p => toString p.1 ++ ". " ++
          format_citation ((f p.2).book.getD "Unknown") (f p.2).page) := by
  intro l
  induction l with
  | nil => intro i; rfl
  | cons a rest ih =>
    intro i
    simp only [List.map_cons, citationLines, List.enumFrom, ih]

theorem format_citation_str (b p : String) :
    format_citation b (PyVal.str p)
      = if p ≠ "" then "**" ++ b ++ "** (Page " ++ p ++ ")"
        else "**" ++ b ++ "**" := by
  unfold format_citation PyVal.truthy PyVal.toDisplay
  by_cases h : p = ""
  · simp [h]
  · simp [h]

/-- Claim C6: for every book-based query whose retrieval returns a
non-empty chunk list, `RAGEngine.query` returns one source entry per
retrieved chunk — carrying that chunk's book name and page (with the
`.get` defaults "Unknown" / "N/A") — and a citations field equal to the
newline-joined numbered list whose i-th line is
"i. **book** (Page p)", the page part omitted when the page value is
falsy. -/
theorem query_citations (vs : VectorStoreM) (llm : LLMHandler)
    (question : String) (top_k : Option Nat)
    (h : vs.similarity_search question top_k ≠ []) :
    (query vs llm question false top_k).sources
        = (vs.similarity_search question top_k).map (fun c =>
            ⟨c.metadata.book_name.getD "Unknown", c.metadata.page.getD "N/A",
             if 200 < c.text.length then c.text.take 200 ++ "..."
             else c.text⟩) ∧
    (query vs llm question false top_k).citations
        = String.intercalate "\n"
            ((List.enumFrom 1 (vs.similarity_search question top_k)).map
              (fun p => toString p.1 ++ ". " ++ citationLineSpec p.2)) := by
  unfold query query_books
  simp only [Bool.false_eq_true, if_false]
  rw [if_neg (by simpa using h)]
  refine ⟨rfl, ?_⟩
  simp only [List.map_map]
  unfold format_citations_list
  rw [if_neg (by simpa using h)]
  rw [show ((vs.similarity_search question top_k).map
      ((fun s => ({ book := some s.book, page := PyVal.str s.page } : CiteSource)) ∘
        (fun c => ({ book := c.metadata.book_name.getD "Unknown",
                     page := c.metadata.page.getD "N/A",
                     text_preview := if 200 < c.text.length
                       then c.text.take 200 ++ "..."
                       else c.text } : QuerySource))))
      = (vs.similarity_search question top_k).map
          (fun c => ({ book := some (c.metadata.book_name.getD "Unknown"),
                       page := PyVal.str (c.metadata.page.getD "N/A") }
                     : CiteSource)) from rfl]
  rw [citationLines_map]
  congr 1
  apply List.map_congr_left
  intro p _
  simp only [Option.getD_some]
  rw [format_citation_str]
  unfold citationLineSpec
  rfl

theorem query_citations_witness :
    (VectorStoreM.mk
        (fun _ _ => [⟨"txt", ⟨some "BookA", some "3"⟩⟩])).similarity_search
      "q" Option.none ≠ [] ∧
    (query ⟨fun _ _ => [⟨"txt", ⟨some "BookA", some "3"⟩⟩]⟩
        ⟨fun _ _ => "p", fun _ => "p", fun _ => "ans"⟩
        "q" false Option.none).citations
      = String.intercalate "\n"
          ((List.enumFrom 1
              ((VectorStoreM.mk
                  (fun _ _ => [⟨"txt", ⟨some "BookA", some "3"⟩⟩])).similarity_search
                "q" Option.none)).map
            (fun p => toString p.1 ++ ". " ++ citationLineSpec p.2)) :=
  ⟨by simp,
   (query_citations ⟨fun _ _ => [⟨"txt", ⟨some "BookA", some "3"⟩⟩]⟩
     ⟨fun _ _ => "p", fun _ => "p", fun _ => "ans"⟩ "q" Option.none
     (by simp)).2⟩
